import Mathlib

/-!
Verification of the core logic of the academic-genealogy explorer
(`src/app.py`): text normalization, name/school search matching,
affiliation aggregation, and the recursive descendant counter.

Python strings are embedded as `List Char`; SQLite tables are embedded as
Lean lists of row structures; the SQL statements of `app.py` are embedded
as the corresponding list computations (filter / join / distinct / sort).
The mutable `visited` set of `get_descendants_count` is threaded
explicitly, and the unbounded Python recursion is embedded with a fuel
parameter; fuel-indifference beyond an explicit bound is proved, which is
the termination statement for the original recursion.
-/

/-! ### Text normalizer (`normalize_search_text`, app.py lines 30-37) -/

/-- Modelled from the spec: the interface of the external `unicodedata`
module used by `normalize_search_text` — canonical decomposition (NFD) of
a single character, the `Mn` (combining-mark) category test, and the
per-character lowercase map of `str.lower`. -/
structure UnicodeTable where
  nfd : Char → List Char
  isMn : Char → Bool
  lowerChar : Char → Char

/-- Python `str.strip()` of leading whitespace. -/
def pyStripLeft (l : List Char) : List Char :=
  l.dropWhile (fun c => c.isWhitespace)

/-- Python `str.strip()` of trailing whitespace. -/
def pyStripRight (l : List Char) : List Char :=
  (l.reverse.dropWhile (fun c => c.isWhitespace)).reverse

/-- Python `str.strip()`: drop whitespace from both ends. -/
def pyStrip (l : List Char) : List Char :=
  pyStripRight (pyStripLeft l)

/-- `normalize_search_text` (app.py lines 30-37): NFD-decompose, drop
combining marks, lowercase, strip. -/
def normalize_search_text (T : UnicodeTable) (text : List Char) : List Char :=
  if text.isEmpty then []
  else
    let nfdText := text.flatMap T.nfd
    let without_diacritics := nfdText.filter (fun c => !(T.isMn c))
    pyStrip (without_diacritics.map T.lowerChar)

/-- Modelled from the spec: the ASCII case of Python's `str.lower`,
sufficient for the characters exercised by the examples. -/
def pyLowerChar (c : Char) : Char :=
  if 'A' ≤ c ∧ c ≤ 'Z' then Char.ofNat (c.toNat + 32) else c

/-- U+0301 COMBINING ACUTE ACCENT (category `Mn`). -/
def combiningAcute : Char := Char.ofNat 769

/-- U+00C9 LATIN CAPITAL LETTER E WITH ACUTE. -/
def capitalEAcute : Char := Char.ofNat 201

/-- U+00E9 LATIN SMALL LETTER E WITH ACUTE. -/
def smallEAcute : Char := Char.ofNat 233

/-- Modelled from the spec: a concrete `UnicodeTable` covering the
characters of the spec's examples (É/é decompose to a base letter plus
U+0301; U+0301 is the only combining mark; ASCII lowercasing). -/
def stdTable : UnicodeTable :=
  ⟨fun c =>
      if c = capitalEAcute then ['E', combiningAcute]
      else if c = smallEAcute then ['e', combiningAcute]
      else [c],
    fun c => c = combiningAcute,
    pyLowerChar⟩

/-! ### Relational store (app.py lines 60-103) -/

/-- A row of the `people` table. -/
structure PersonRow where
  person_id : String
  name : String
  years : String
  name_normalized : String
deriving DecidableEq

/-- A row of the `dissertations` table. -/
structure DissRow where
  dissertation_id : String
  author_id : String
  author_name : String
  title : String
  year : String
  school : String
  school_id : String
  department : String
  subject_broad : String
deriving DecidableEq

/-- A row of the `advisors` table. -/
structure AdvisorRow where
  dissertation_id : String
  advisor_id : String
  advisor_name : String
  advisor_role : String
  advisor_number : Nat
deriving DecidableEq

/-- A row of the `schools` table. -/
structure SchoolRow where
  school_id : String
  school_name : String
  school_name_normalized : String
deriving DecidableEq

/-- The relational store. -/
structure DB where
  people : List PersonRow
  dissertations : List DissRow
  advisors : List AdvisorRow
  schools : List SchoolRow

/-! ### SQL LIKE (the `name_normalized LIKE ?` patterns of app.py) -/

/-- SQLite's ASCII-only case folding used by the default `LIKE`. -/
def likeCharFold (c : Char) : Char :=
  if 'A' ≤ c ∧ c ≤ 'Z' then Char.ofNat (c.toNat + 32) else c

/-- SQLite `LIKE` pattern matching: `%` matches any sequence, `_` any
single character, other characters match up to ASCII case folding. -/
def likeM : List Char → List Char → Bool
  | [] => fun s => s.isEmpty
  | p :: ps => fun s =>
    if p = '%' then s.tails.any (likeM ps)
    else
      match s with
      | [] => false
      | c :: t =>
        if p = '_' then likeM ps t
        else (likeCharFold p = likeCharFold c) && likeM ps t

/-- The pattern `f'%{part}%'` built by the search route. -/
def likePattern (part : List Char) : List Char :=
  '%' :: (part ++ ['%'])

/-- Python `str.split()`: split on whitespace runs, no empty pieces
(auxiliary accumulator form). -/
def splitWsAux : List Char → List Char → List (List Char)
  | [], cur => if cur.isEmpty then [] else [cur.reverse]
  | c :: rest, cur =>
    if c.isWhitespace then
      if cur.isEmpty then splitWsAux rest [] else cur.reverse :: splitWsAux rest []
    else splitWsAux rest (c :: cur)

/-- Python `str.split()` on whitespace. -/
def splitWs (l : List Char) : List (List Char) :=
  splitWsAux l []

/-- Insert `a` before the first element it compares `le` to — the step of
a stable insertion sort standing for `ORDER BY` / `list.sort`. -/
def insertSorted {α : Type} (le : α → α → Bool) (a : α) : List α → List α
  | [] => [a]
  | b :: t => if le a b then a :: b :: t else b :: insertSorted le a t

/-- Stable sort by `le`, standing for SQL `ORDER BY name` and Python
`results.sort(key=...)`. -/
def sortByLe {α : Type} (le : α → α → Bool) : List α → List α
  | [] => []
  | a :: t => insertSorted le a (sortByLe le t)

/-! ### Affiliation aggregator (`get_person_affiliations`, app.py lines 259-306) -/

/-- One affiliation record: school display name, student/faculty flags,
and the dissertation year when the person studied there. -/
structure Affil where
  school : String
  student : Bool
  faculty : Bool
  year : Option String
deriving DecidableEq

/-- `key = school_id if school_id else school` (app.py lines 275, 294). -/
def affKey (school school_id : String) : String :=
  if school_id = "" then school else school_id

/-- `SELECT DISTINCT school, school_id, year FROM dissertations WHERE
author_id = ?` (app.py lines 267-271). -/
def studentRows (db : DB) (person_id : String) : List (String × String × String) :=
  ((db.dissertations.filter (fun d => d.author_id = person_id)).map
    (fun d => (d.school, d.school_id, d.year))).dedup

/-- `FROM advisors a JOIN dissertations d ON a.dissertation_id =
d.dissertation_id WHERE a.advisor_id = ?`: the joined dissertation rows. -/
def advisedDissertations (db : DB) (person_id : String) : List DissRow :=
  (db.advisors.filter (fun a => a.advisor_id = person_id)).flatMap
    (fun a => db.dissertations.filter (fun d => d.dissertation_id = a.dissertation_id))

/-- `SELECT DISTINCT d.school, d.school_id` over the advised join
(app.py lines 285-290). -/
def facultyRows (db : DB) (person_id : String) : List (String × String) :=
  ((advisedDissertations db person_id).map (fun d => (d.school, d.school_id))).dedup

/-- Set `faculty = True` on a dict entry (app.py line 303). -/
def setFaculty (e : String × Affil) : String × Affil :=
  (e.1, ⟨e.2.school, e.2.student, true, e.2.year⟩)

/-- The student pass's body (app.py lines 273-282): skip empty school
names, insert a `student=True, faculty=False` entry at a fresh key. -/
def addStudentRow (acc : List (String × Affil)) (row : String × String × String) :
    List (String × Affil) :=
  if row.1 = "" then acc
  else
    let key := affKey row.1 row.2.1
    if acc.any (fun e => e.1 = key) then acc
    else acc ++ [(key, ⟨row.1, true, false, some row.2.2⟩)]

/-- The faculty pass's body (app.py lines 292-303): skip empty school
names, mark `faculty=True` on an existing entry, else insert a
`student=False, faculty=True` entry. -/
def addFacultyRow (acc : List (String × Affil)) (row : String × String) :
    List (String × Affil) :=
  if row.1 = "" then acc
  else
    let key := affKey row.1 row.2
    if acc.any (fun e => e.1 = key) then
      acc.map (fun e => if e.1 = key then setFaculty e else e)
    else acc ++ [(key, ⟨row.1, false, true, none⟩)]

/-- The insertion-ordered `affiliations` dict as an association list. -/
def affMap (db : DB) (person_id : String) : List (String × Affil) :=
  (facultyRows db person_id).foldl addFacultyRow
    ((studentRows db person_id).foldl addStudentRow [])

/-- `get_person_affiliations` (app.py lines 259-306): `list(affiliations.values())`. -/
def get_person_affiliations (db : DB) (person_id : String) : List Affil :=
  (affMap db person_id).map Prod.snd

/-! ### Descendant counter (`get_descendants_count`, app.py lines 309-344) -/

/-- `SELECT DISTINCT d.author_id` over the advised join, then
`[row[0] for row in ... if row[0]]` (app.py lines 323-330). -/
def directStudents (db : DB) (person_id : String) : List String :=
  (((advisedDissertations db person_id).map (fun d => d.author_id)).dedup).filter
    (fun s => s ≠ "")

/-- The `for student_id in students:` loop of app.py lines 339-342,
threading the shared mutable `visited` set through the recursive calls
`f` and accumulating `(total_descendants, max_depth)` deltas: the loop
adds each recursive count and takes `max` of each recursive depth plus
one. -/
def gdcStudents (f : String → Finset String → (Nat × Nat) × Finset String) :
    List String → Finset String → (Nat × Nat) × Finset String
  | [], visited => ((0, 0), visited)
  | s :: rest, visited =>
    let r1 := f s visited
    let r2 := gdcStudents f rest r1.2
    ((r1.1.1 + r2.1.1, max (r1.1.2 + 1) r2.1.2), r2.2)

/-- One call of `get_descendants_count(person_id, visited)` (app.py lines
309-344), with a fuel parameter standing for the unbounded Python
recursion: return `(0,0)` on a visited person, add the person to
`visited`, return `(0,0)` when there are no direct students, else start
from `(len(students), 1)` and run the student loop. -/
def gdcVisit (db : DB) : Nat → String → Finset String → (Nat × Nat) × Finset String
  | 0 => fun _ visited => ((0, 0), visited)
  | fuel + 1 => fun person_id visited =>
    if person_id ∈ visited then ((0, 0), visited)
    else
      let visited1 := insert person_id visited
      let students := directStudents db person_id
      if students.isEmpty then ((0, 0), visited1)
      else
        let folded := gdcStudents (gdcVisit db fuel) students visited1
        ((students.length + folded.1.1, max 1 folded.1.2), folded.2)

/-- Every person id that can appear as an advisor or an author: the
recursion only ever descends into this finite set. -/
def personUniverse (db : DB) : Finset String :=
  (db.advisors.map (fun a => a.advisor_id)).toFinset ∪
    (db.dissertations.map (fun d => d.author_id)).toFinset

/-- Enough fuel for the traversal of any person of `db`. -/
def fuelBound (db : DB) : Nat :=
  (personUniverse db).card + 1

/-- `get_descendants_count(person_id)` called from the routes with a
fresh `visited` set: the `(totalDescendants, maxDepth)` pair. -/
def get_descendants_count (db : DB) (person_id : String) : Nat × Nat :=
  (gdcVisit db (fuelBound db) person_id ∅).1

/-- The advisor→student edge relation derived from the store: `v` wrote a
dissertation that `u` advised. -/
def advStep (db : DB) (u v : String) : Prop :=
  v ∈ directStudents db u

/-- A walk of `n` advisor→student steps starting at `u` (vertices may
repeat). -/
inductive WalkLen (db : DB) : String → Nat → Prop
  | zero (u : String) : WalkLen db u 0
  | succ (u v : String) (n : Nat) (h : advStep db u v) (rest : WalkLen db v n) :
      WalkLen db u (n + 1)

/-- Modelled from the spec: a simple path from `root` in the
advisor→student graph — consecutive vertices joined by edges, no vertex
repeated, starting at `root`; its generation length is one less than its
vertex count. -/
def isSimplePathFrom (db : DB) (root : String) (l : List String) : Prop :=
  l.Chain' (advStep db) ∧ l.Nodup ∧ l.head? = some root

/-! ### Search routes (`search`, app.py lines 389-518) -/

/-- One entry of the `results` list built by the search route. -/
structure PersonResult where
  person_id : String
  name : String
  years : String
  affiliations : List Affil
deriving DecidableEq

/-- The three shapes the `/search` route answers with: the
"Please enter a name or university" error, the "University not found"
error, and a (possibly empty) result list. -/
inductive SearchOutcome where
  | emptyQueryError : SearchOutcome
  | schoolNotFound : SearchOutcome
  | results : List PersonResult → SearchOutcome
deriving DecidableEq

/-- The result dict built for one matched person (app.py lines 428-435). -/
def resultOfPerson (db : DB) (p : PersonRow) : PersonResult :=
  ⟨p.person_id, p.name, p.years, get_person_affiliations db p.person_id⟩

/-- `ORDER BY name` on people rows (SQLite binary collation). -/
def personLe (a b : PersonRow) : Bool :=
  decide (a.name ≤ b.name)

/-- `results.sort(key=lambda x: x['name'])` comparison. -/
def resultLe (a b : PersonResult) : Bool :=
  decide (a.name ≤ b.name)

/-- `[part.strip() for part in name_normalized.split() if part.strip()]`
(app.py line 408). -/
def nameParts (T : UnicodeTable) (name_query : List Char) : List (List Char) :=
  (splitWs (normalize_search_text T name_query)).filterMap
    (fun part => let s := pyStrip part; if s.isEmpty then none else some s)

/-- The name branch of the search route (app.py lines 403-435): empty
part list yields no results, else filter people on every `name_normalized
LIKE '%part%'`, order by name, and attach affiliations. -/
def searchByName (T : UnicodeTable) (db : DB) (name_query : List Char) : List PersonResult :=
  let parts := nameParts T name_query
  if parts.isEmpty then []
  else
    let matched := db.people.filter
      (fun p => parts.all (fun part => likeM (likePattern part) p.name_normalized.data))
    (sortByLe personLe matched).map (resultOfPerson db)

/-- `SELECT DISTINCT author_id FROM dissertations WHERE school_id = ? OR
school = ?`, keeping only truthy ids (app.py lines 479-487). -/
def schoolStudentIds (db : DB) (s : SchoolRow) : List String :=
  (((db.dissertations.filter (fun d => d.school_id = s.school_id ∨ d.school = s.school_name)).map
    (fun d => d.author_id)).dedup).filter (fun x => x ≠ "")

/-- `SELECT DISTINCT a.advisor_id FROM advisors a JOIN dissertations d
... WHERE d.school_id = ? OR d.school = ?`, keeping only truthy ids
(app.py lines 490-499). -/
def schoolAdvisorIds (db : DB) (s : SchoolRow) : List String :=
  ((db.advisors.flatMap (fun a =>
    (db.dissertations.filter (fun d => d.dissertation_id = a.dissertation_id ∧
      (d.school_id = s.school_id ∨ d.school = s.school_name))).map
      (fun _ => a.advisor_id))).dedup).filter (fun x => x ≠ "")

/-- The school branch of the search route (app.py lines 456-514): find
the first school whose normalized name LIKE-matches `%query%` ("University
not found" when none), take the union of student and advisor ids there,
keep those present in `people`, attach affiliations, sort by name. -/
def searchBySchool (T : UnicodeTable) (db : DB) (school_query : List Char) : SearchOutcome :=
  let school_normalized := normalize_search_text T school_query
  match db.schools.find? (fun s =>
      likeM (likePattern school_normalized) s.school_name_normalized.data) with
  | none => SearchOutcome.schoolNotFound
  | some s =>
    let people_ids := (schoolStudentIds db s ++ schoolAdvisorIds db s).dedup
    let rs := people_ids.filterMap (fun pid =>
      (db.people.find? (fun p => p.person_id = pid)).map
        (fun p => (⟨pid, p.name, p.years, get_person_affiliations db pid⟩ : PersonResult)))
    SearchOutcome.results (sortByLe resultLe rs)

/-- The `/search` route (app.py lines 389-518): strip both form fields,
reject when both are blank, run the name branch when the name is
non-blank, else the school branch. -/
def search (T : UnicodeTable) (db : DB) (nameRaw schoolRaw : List Char) : SearchOutcome :=
  let name_query := pyStrip nameRaw
  let school_query := pyStrip schoolRaw
  if name_query.isEmpty && school_query.isEmpty then SearchOutcome.emptyQueryError
  else if !name_query.isEmpty then SearchOutcome.results (searchByName T db name_query)
  else searchBySchool T db school_query

/-! ### Concrete stores used by examples and counterexamples -/

/-- Diamond store: A advised B and C; B and C both advised D (one
dissertation `dD` with two advisor rows). -/
def dbDiamond : DB :=
  ⟨[],
   [⟨"dB", "B", "", "", "", "", "", "", ""⟩,
    ⟨"dC", "C", "", "", "", "", "", "", ""⟩,
    ⟨"dD", "D", "", "", "", "", "", "", ""⟩],
   [⟨"dB", "A", "", "", 1⟩,
    ⟨"dC", "A", "", "", 1⟩,
    ⟨"dD", "B", "", "", 1⟩,
    ⟨"dD", "C", "", "", 2⟩],
   []⟩

/-- Cycle store: A advised B and B advised A. -/
def dbCycle : DB :=
  ⟨[],
   [⟨"dA", "A", "", "", "", "", "", "", ""⟩,
    ⟨"dB", "B", "", "", "", "", "", "", ""⟩],
   [⟨"dB", "A", "", "", 1⟩,
    ⟨"dA", "B", "", "", 1⟩],
   []⟩

/-- Chain store: A advised B, B advised C. -/
def dbChain : DB :=
  ⟨[],
   [⟨"dB", "B", "", "", "", "", "", "", ""⟩,
    ⟨"dC", "C", "", "", "", "", "", "", ""⟩],
   [⟨"dB", "A", "", "", 1⟩,
    ⟨"dC", "B", "", "", 1⟩],
   []⟩

/-- A store with one person whose normalized name is "axb". -/
def dbWild : DB :=
  ⟨[⟨"p1", "axb", "", "axb"⟩], [], [], []⟩

/-- A store with one school named "mat" and nobody in it. -/
def dbSchoolMat : DB :=
  ⟨[], [], [], [⟨"s1", "mat", "mat"⟩]⟩

/-- A store where P1 wrote a dissertation at school X and advised P2's
dissertation at the same school X (same key "s1"). -/
def dbBoth : DB :=
  ⟨[⟨"P1", "One", "", "one"⟩, ⟨"P2", "Two", "", "two"⟩],
   [⟨"d1", "P1", "", "", "1950", "X", "s1", "", ""⟩,
    ⟨"d2", "P2", "", "", "1980", "X", "s1", "", ""⟩],
   [⟨"d2", "P1", "", "", 1⟩],
   []⟩

/-- The query string "a%b". -/
def qWild : List Char := ['a', '%', 'b']

/-- The query string "m%t". -/
def qSchoolWild : List Char := ['m', '%', 't']

/-- The decomposed characters of "Émile" (É as U+00C9). -/
def emileUpper : List Char := [capitalEAcute, 'm', 'i', 'l', 'e']

/-- The characters of "emile". -/
def emileLower : List Char := ['e', 'm', 'i', 'l', 'e']

/-- The facts about `unicodedata` and `str.lower` the idempotence of
`normalize_search_text` rests on: a character produced by
decompose-drop-marks-lowercase is NFD-stable, not a combining mark, and
lowercase-stable. True of the real Unicode tables for the pipeline's
output alphabet. -/
def goodTable (T : UnicodeTable) : Prop :=
  ∀ c d, d ∈ T.nfd c → T.isMn d = false →
    T.nfd (T.lowerChar d) = [T.lowerChar d] ∧
    T.isMn (T.lowerChar d) = false ∧
    T.lowerChar (T.lowerChar d) = T.lowerChar d

/-- A search token free of SQL LIKE wildcards. -/
def noWildcard (part : List Char) : Prop :=
  '%' ∉ part ∧ '_' ∉ part

/-! ## Theorems

### Stripping and normalization -/

theorem dropWhile_self {α : Type} (p : α → Bool) (l : List α) :
    (l.dropWhile p).dropWhile p = l.dropWhile p := by
  induction l with
  | nil => simp
  | cons c t ih =>
    by_cases h : p c
    · simp [List.dropWhile_cons, h, ih]
    · simp [List.dropWhile_cons, h]

theorem dropWhile_prefix_stable {α : Type} (p : α → Bool) {t l : List α}
    (hpre : t <+: l) (hl : l.dropWhile p = l) : t.dropWhile p = t := by
  cases t with
  | nil => simp
  | cons a t' =>
    obtain ⟨r, hr⟩ := hpre
    subst hr
    simp only [List.cons_append] at hl
    have hpa : p a = false := by
      by_contra hpa
      have hpa' : p a = true := by
        cases hp : p a
        · exact absurd hp hpa
        · rfl
      rw [List.dropWhile_cons, hpa', if_pos rfl] at hl
      have hlen := congrArg List.length hl
      rw [List.length_cons] at hlen
      have hsub := (List.dropWhile_sublist (l := t' ++ r) p).length_le
      omega
    simp [List.dropWhile_cons, hpa]

theorem dropWhile_suffix {α : Type} (p : α → Bool) (l : List α) :
    l.dropWhile p <:+ l := by
  induction l with
  | nil => simp
  | cons a t ih =>
    by_cases h : p a
    · rw [List.dropWhile_cons, if_pos h]
      exact ih.trans (List.suffix_cons a t)
    · rw [List.dropWhile_cons, if_neg h]

theorem prefix_pyStripRight (l : List Char) : pyStripRight l <+: l := by
  unfold pyStripRight
  rw [show l = l.reverse.reverse from (List.reverse_reverse l).symm]
  rw [List.reverse_prefix]
  rw [List.reverse_reverse]
  exact dropWhile_suffix _ _

theorem pyStripLeft_self (l : List Char) : pyStripLeft (pyStripLeft l) = pyStripLeft l :=
  dropWhile_self _ l

theorem pyStripRight_self (l : List Char) : pyStripRight (pyStripRight l) = pyStripRight l := by
  unfold pyStripRight
  rw [List.reverse_reverse, dropWhile_self]

theorem pyStrip_idem (l : List Char) : pyStrip (pyStrip l) = pyStrip l := by
  unfold pyStrip
  have h1 : pyStripLeft (pyStripRight (pyStripLeft l)) = pyStripRight (pyStripLeft l) :=
    dropWhile_prefix_stable _ (prefix_pyStripRight (pyStripLeft l)) (pyStripLeft_self l)
  rw [h1, pyStripRight_self]

theorem pyStrip_sublist (l : List Char) : (pyStrip l).Sublist l := by
  unfold pyStrip
  have h1 : (pyStripLeft l).Sublist l := List.dropWhile_sublist _
  have h2 : (pyStripRight (pyStripLeft l)).Sublist (pyStripLeft l) :=
    (prefix_pyStripRight (pyStripLeft l)).sublist
  exact h2.trans h1

theorem mem_normalize {T : UnicodeTable} {x : List Char} {c : Char}
    (h : c ∈ normalize_search_text T x) :
    ∃ d, (∃ a, a ∈ x ∧ d ∈ T.nfd a) ∧ T.isMn d = false ∧ c = T.lowerChar d := by
  unfold normalize_search_text at h
  split at h
  · simp at h
  · have hmem := (pyStrip_sublist _).mem h
    rw [List.mem_map] at hmem
    obtain ⟨d, hd, hdc⟩ := hmem
    rw [List.mem_filter] at hd
    obtain ⟨hdf, hdm⟩ := hd
    rw [List.mem_flatMap] at hdf
    obtain ⟨a, ha, had⟩ := hdf
    refine ⟨d, ⟨a, ha, had⟩, ?_, hdc.symm⟩
    simpa using hdm

theorem flatMap_eq_self {α : Type} {f : α → List α} {l : List α}
    (h : ∀ a ∈ l, f a = [a]) : l.flatMap f = l := by
  induction l with
  | nil => rfl
  | cons a t ih =>
    rw [List.flatMap_cons, h a (by simp), ih (fun x hx => h x (List.mem_cons_of_mem a hx))]
    rfl

theorem map_eq_self {α : Type} {f : α → α} {l : List α}
    (h : ∀ a ∈ l, f a = a) : l.map f = l :=
  (List.map_congr_left h).trans (List.map_id l)

theorem char_toNat_ofNat {n : Nat} (h : n < 55296) : (Char.ofNat n).toNat = n := by
  have hv : n.isValidChar := Or.inl h
  simp only [Char.ofNat, hv, dite_true, Char.ofNatAux, Char.toNat]
  simp [UInt32.toNat, BitVec.toNat_ofNatLt]

theorem char_ne_of_toNat_ne {a b : Char} (h : a.toNat ≠ b.toNat) : a ≠ b :=
  fun he => h (by rw [he])

theorem pyLowerChar_toNat {c : Char} (h : 'A' ≤ c ∧ c ≤ 'Z') :
    (pyLowerChar c).toNat = c.toNat + 32 := by
  have h1 : 65 ≤ c.toNat := by have h' := h.1; rw [Char.le_def] at h'; exact h'
  have h2 : c.toNat ≤ 90 := by have h' := h.2; rw [Char.le_def] at h'; exact h'
  rw [pyLowerChar, if_pos h, char_toNat_ofNat (by omega)]

theorem pyLowerChar_not_upper {c : Char} (h : ¬('A' ≤ c ∧ c ≤ 'Z')) :
    pyLowerChar c = c := by
  rw [pyLowerChar, if_neg h]

theorem not_upper_of_toNat_gt {c : Char} (h : 90 < c.toNat) : ¬('A' ≤ c ∧ c ≤ 'Z') := by
  intro hc
  have h2 : c.toNat ≤ 90 := by have h' := hc.2; rw [Char.le_def] at h'; exact h'
  omega

theorem goodTable_stdTable : goodTable stdTable := by
  intro c d hd hmn
  by_cases hc1 : c = capitalEAcute
  · subst hc1
    have hd' : d = 'E' ∨ d = combiningAcute := by simpa [stdTable] using hd
    rcases hd' with h | h
    · subst h
      refine ⟨by decide, by decide, by decide⟩
    · subst h
      simp [stdTable] at hmn
  · by_cases hc2 : c = smallEAcute
    · subst hc2
      have hd' : d = 'e' ∨ d = combiningAcute := by simpa [stdTable, hc1] using hd
      rcases hd' with h | h
      · subst h
        refine ⟨by decide, by decide, by decide⟩
      · subst h
        simp [stdTable] at hmn
    · have hd' : c = d := by
        have : d = c := by simpa [stdTable, hc1, hc2] using hd
        exact this.symm
      subst hd'
      have hdacute : c ≠ combiningAcute := by
        intro h
        subst h
        simp [stdTable] at hmn
      by_cases hup : 'A' ≤ c ∧ c ≤ 'Z'
      · have ht := pyLowerChar_toNat hup
        have h2 : c.toNat ≤ 90 := by have h' := hup.2; rw [Char.le_def] at h'; exact h'
        have h1 : 65 ≤ c.toNat := by have h' := hup.1; rw [Char.le_def] at h'; exact h'
        have hrC : pyLowerChar c ≠ capitalEAcute := by
          apply char_ne_of_toNat_ne
          have : capitalEAcute.toNat = 201 := by decide
          omega
        have hrE : pyLowerChar c ≠ smallEAcute := by
          apply char_ne_of_toNat_ne
          have : smallEAcute.toNat = 233 := by decide
          omega
        have hrA : pyLowerChar c ≠ combiningAcute := by
          apply char_ne_of_toNat_ne
          have : combiningAcute.toNat = 769 := by decide
          omega
        refine ⟨by simp [stdTable, hrC, hrE], by simp [stdTable, hrA], ?_⟩
        have : ¬('A' ≤ pyLowerChar c ∧ pyLowerChar c ≤ 'Z') :=
          not_upper_of_toNat_gt (by omega)
        exact pyLowerChar_not_upper this
      · simp only [stdTable]
        rw [pyLowerChar_not_upper hup]
        refine ⟨by simp [hc1, hc2], ?_, pyLowerChar_not_upper hup⟩
        simpa [stdTable] using hmn

/-- C5: `normalize` is idempotent — `normalize(normalize(x)) ==
normalize(x)` for every string — for every Unicode table whose output
alphabet is decomposition-, mark- and case-stable (which the real
`unicodedata` tables are for this pipeline); and on the concrete table,
`normalize("Émile") = normalize("emile") = "emile"`. -/
theorem normalize_search_text_idempotent (T : UnicodeTable) (hT : goodTable T) :
    (∀ x, normalize_search_text T (normalize_search_text T x) =
      normalize_search_text T x) ∧
    normalize_search_text stdTable emileUpper = emileLower ∧
    normalize_search_text stdTable emileLower = emileLower := by
  refine ⟨?_, by decide, by decide⟩
  intro x
  by_cases hx : normalize_search_text T x = []
  · rw [hx]
    rfl
  · have hchars : ∀ c ∈ normalize_search_text T x,
        T.nfd c = [c] ∧ T.isMn c = false ∧ T.lowerChar c = c := by
      intro c hc
      obtain ⟨d, ⟨a, _, had⟩, hdm, hcd⟩ := mem_normalize hc
      obtain ⟨h1, h2, h3⟩ := hT a d had hdm
      subst hcd
      exact ⟨h1, h2, h3⟩
    have hstrip : pyStrip (normalize_search_text T x) = normalize_search_text T x := by
      rw [normalize_search_text]
      split
      · rfl
      · rw [pyStrip_idem]
    conv_lhs => rw [normalize_search_text]
    rw [if_neg (by simpa using hx)]
    show pyStrip ((((normalize_search_text T x).flatMap T.nfd).filter
      (fun c => !(T.isMn c))).map T.lowerChar) = normalize_search_text T x
    rw [flatMap_eq_self (fun a ha => (hchars a ha).1)]
    rw [List.filter_eq_self.mpr (fun a ha => by simp [(hchars a ha).2.1])]
    rw [map_eq_self (fun a ha => (hchars a ha).2.2)]
    exact hstrip

theorem normalize_search_text_idempotent_witness :
    (∀ x, normalize_search_text stdTable (normalize_search_text stdTable x) =
      normalize_search_text stdTable x) ∧
    normalize_search_text stdTable emileUpper = emileLower ∧
    normalize_search_text stdTable emileLower = emileLower :=
  normalize_search_text_idempotent stdTable goodTable_stdTable

/-! ### SQL LIKE lemmas -/

theorem likeM_nil (s : List Char) : likeM [] s = s.isEmpty := by
  simp [likeM]

theorem likeM_percent (ps : List Char) (s : List Char) :
    likeM ('%' :: ps) s = s.tails.any (likeM ps) := by
  simp [likeM]

theorem likeM_char_nil {p : Char} (hp : p ≠ '%') (ps : List Char) :
    likeM (p :: ps) [] = false := by
  simp [likeM, hp]

theorem likeM_char_cons {p : Char} (hp1 : p ≠ '%') (hp2 : p ≠ '_') (ps : List Char)
    (c : Char) (t : List Char) :
    likeM (p :: ps) (c :: t) =
      (decide (likeCharFold p = likeCharFold c) && likeM ps t) := by
  simp [likeM, hp1, hp2]

theorem likeM_sub_iff (q s : List Char) :
    likeM ('%' :: q) s = true ↔ ∃ t, t <:+ s ∧ likeM q t = true := by
  rw [likeM_percent, List.any_eq_true]
  constructor
  · rintro ⟨t, ht, hq⟩
    exact ⟨t, (List.mem_tails t s).mp ht, hq⟩
  · rintro ⟨t, ht, hq⟩
    exact ⟨t, (List.mem_tails t s).mpr ht, hq⟩

theorem likeM_percent_any (s : List Char) : likeM ['%'] s = true := by
  rw [likeM_sub_iff]
  exact ⟨[], List.nil_suffix, by simp [likeM]⟩

theorem likeM_tail_iff (part : List Char) (hw : noWildcard part) (s : List Char) :
    likeM (part ++ ['%']) s = true ↔
      part.map likeCharFold <+: s.map likeCharFold := by
  induction part generalizing s with
  | nil =>
    simp [likeM_percent_any]
  | cons p ps ih =>
    obtain ⟨hw1, hw2⟩ := hw
    have hp1 : p ≠ '%' := fun h => hw1 (h ▸ List.mem_cons_self p ps)
    have hp2 : p ≠ '_' := fun h => hw2 (h ▸ List.mem_cons_self p ps)
    have hw' : noWildcard ps :=
      ⟨fun h => hw1 (List.mem_cons_of_mem _ h), fun h => hw2 (List.mem_cons_of_mem _ h)⟩
    cases s with
    | nil =>
      rw [List.cons_append, likeM_char_nil hp1]
      simp
    | cons c t =>
      rw [List.cons_append, likeM_char_cons hp1 hp2]
      simp only [List.map_cons, List.cons_prefix_cons, Bool.and_eq_true, decide_eq_true_eq]
      rw [ih hw']

theorem likeM_pattern_iff {part : List Char} (hw : noWildcard part) (s : List Char) :
    likeM (likePattern part) s = true ↔
      part.map likeCharFold <:+: s.map likeCharFold := by
  rw [likePattern, likeM_sub_iff, List.infix_iff_prefix_suffix]
  constructor
  · rintro ⟨t, ht, hq⟩
    exact ⟨t.map likeCharFold, (likeM_tail_iff part hw t).mp hq, List.IsSuffix.map _ ht⟩
  · rintro ⟨t', hpre, hsuf⟩
    have hdrop := List.suffix_iff_eq_drop.mp hsuf
    refine ⟨s.drop ((s.map likeCharFold).length - t'.length), List.drop_suffix _ _, ?_⟩
    rw [likeM_tail_iff part hw, List.map_drop, ← hdrop]
    exact hpre

/-! ### Insertion sort lemmas -/

theorem mem_insertSorted {α : Type} (le : α → α → Bool) (a x : α) (l : List α) :
    x ∈ insertSorted le a l ↔ x = a ∨ x ∈ l := by
  induction l with
  | nil => simp [insertSorted]
  | cons b t ih =>
    by_cases h : le a b = true
    · simp only [insertSorted, if_pos h, List.mem_cons]
    · simp only [insertSorted, if_neg h, List.mem_cons, ih]
      tauto

theorem mem_sortByLe {α : Type} (le : α → α → Bool) (x : α) (l : List α) :
    x ∈ sortByLe le l ↔ x ∈ l := by
  induction l with
  | nil => simp [sortByLe]
  | cons a t ih =>
    simp only [sortByLe, mem_insertSorted, List.mem_cons, ih]

theorem insertSorted_pairwise {α : Type} {le : α → α → Bool}
    (htrans : ∀ a b c, le a b = true → le b c = true → le a c = true)
    (htot : ∀ a b, (le a b || le b a) = true) (a : α) {l : List α}
    (hl : l.Pairwise (fun x y => le x y = true)) :
    (insertSorted le a l).Pairwise (fun x y => le x y = true) := by
  induction l with
  | nil => simp [insertSorted]
  | cons b t ih =>
    rw [List.pairwise_cons] at hl
    obtain ⟨hb, ht⟩ := hl
    by_cases h : le a b = true
    · rw [insertSorted, if_pos h]
      refine List.Pairwise.cons ?_ (List.Pairwise.cons hb ht)
      intro x hx
      rcases List.mem_cons.mp hx with rfl | hx
      · exact h
      · exact htrans a b x h (hb x hx)
    · rw [insertSorted, if_neg h]
      refine List.Pairwise.cons ?_ (ih ht)
      intro x hx
      rw [mem_insertSorted] at hx
      rcases hx with hxa | hx
      · rw [hxa]
        have h2 := htot a b
        rw [Bool.or_eq_true] at h2
        rcases h2 with h2 | h2
        · exact absurd h2 h
        · exact h2
      · exact hb x hx

theorem sortByLe_pairwise {α : Type} {le : α → α → Bool}
    (htrans : ∀ a b c, le a b = true → le b c = true → le a c = true)
    (htot : ∀ a b, (le a b || le b a) = true) (l : List α) :
    (sortByLe le l).Pairwise (fun x y => le x y = true) := by
  induction l with
  | nil => simp [sortByLe]
  | cons a t ih => exact insertSorted_pairwise htrans htot a ih

/-! ### Name search (claims C4, C8, C9) -/

theorem personLe_trans (a b c : PersonRow) (h1 : personLe a b = true)
    (h2 : personLe b c = true) : personLe a c = true := by
  simp only [personLe, decide_eq_true_eq] at *
  exact le_trans h1 h2

theorem personLe_total (a b : PersonRow) : (personLe a b || personLe b a) = true := by
  simp only [personLe, Bool.or_eq_true, decide_eq_true_eq]
  exact le_total a.name b.name

/-- C4 (amended): a zero-token query returns no results; every returned
person comes from the `people` table and their stored normalized name
LIKE-matches `%token%` for every token (SQL LIKE semantics, where the
query's own `%` and `_` act as wildcards); for wildcard-free tokens the
LIKE match is exactly case-folded substring containment; and the result
list is non-decreasing in display name. -/
theorem searchByName_spec (T : UnicodeTable) (db : DB) (q : List Char) :
    (nameParts T q = [] → searchByName T db q = []) ∧
    (∀ r ∈ searchByName T db q, ∃ p, p ∈ db.people ∧ r = resultOfPerson db p ∧
      ∀ part ∈ nameParts T q,
        likeM (likePattern part) p.name_normalized.data = true ∧
        (noWildcard part →
          part.map likeCharFold <:+: p.name_normalized.data.map likeCharFold)) ∧
    (searchByName T db q).Pairwise (fun a b => a.name ≤ b.name) := by
  refine ⟨?_, ?_, ?_⟩
  · intro h
    simp [searchByName, h]
  · intro r hr
    by_cases hparts : (nameParts T q).isEmpty
    · simp [searchByName, hparts] at hr
    · simp only [searchByName, if_neg hparts, List.mem_map] at hr
      obtain ⟨p, hp, hrp⟩ := hr
      rw [mem_sortByLe, List.mem_filter] at hp
      obtain ⟨hp_people, hall⟩ := hp
      rw [List.all_eq_true] at hall
      refine ⟨p, hp_people, hrp.symm, fun part hpart => ?_⟩
      have hlike := hall part hpart
      exact ⟨hlike, fun hw => (likeM_pattern_iff hw _).mp hlike⟩
  · by_cases hparts : (nameParts T q).isEmpty
    · simp [searchByName, hparts]
    · simp only [searchByName, if_neg hparts]
      rw [List.pairwise_map]
      have hsorted := sortByLe_pairwise personLe_trans personLe_total
        (db.people.filter (fun p =>
          (nameParts T q).all (fun part => likeM (likePattern part) p.name_normalized.data)))
      refine hsorted.imp ?_
      intro a b hab
      simpa [personLe, resultOfPerson] using hab

/-- C4 counterexample: the query "a%b" has the single token "a%b"; the
search returns the person with normalized name "axb", yet "a%b" is not a
substring of "axb" — the token's `%` acted as a LIKE wildcard. -/
theorem searchByName_wildcard_cex :
    nameParts stdTable qWild = [qWild] ∧
    searchByName stdTable dbWild qWild = [⟨"p1", "axb", "", []⟩] ∧
    ¬ (qWild <:+: ("axb" : String).data) := by
  refine ⟨by decide, by decide, by decide⟩

/-- C8: when both form fields are blank after stripping, the search
route answers the user-input error, and does so identically for every
store — the store plays no part on this path. -/
theorem search_empty_query (T : UnicodeTable) (db : DB) (nameRaw schoolRaw : List Char)
    (h1 : pyStrip nameRaw = []) (h2 : pyStrip schoolRaw = []) :
    search T db nameRaw schoolRaw = SearchOutcome.emptyQueryError ∧
    ∀ db2 : DB, search T db2 nameRaw schoolRaw = SearchOutcome.emptyQueryError := by
  constructor
  · simp [search, h1, h2]
  · intro db2
    simp [search, h1, h2]

theorem search_empty_query_witness :
    search stdTable dbWild [' '] [] = SearchOutcome.emptyQueryError ∧
    ∀ db2 : DB, search stdTable db2 [' '] [] = SearchOutcome.emptyQueryError :=
  search_empty_query stdTable dbWild [' '] [] (by decide) (by decide)

/-- C9: when both the name field and the school field are non-blank, the
route runs only the name search: the outcome equals that of the same
request with a blank school field. -/
theorem search_name_wins (T : UnicodeTable) (db : DB) (nameRaw schoolRaw : List Char)
    (h1 : pyStrip nameRaw ≠ []) (_h2 : pyStrip schoolRaw ≠ []) :
    search T db nameRaw schoolRaw = search T db nameRaw [] := by
  have h1' : (pyStrip nameRaw).isEmpty = false := by
    cases hp : pyStrip nameRaw
    · exact absurd hp h1
    · rfl
  simp [search, h1']

theorem search_name_wins_witness :
    search stdTable dbWild ['a'] ['b'] = search stdTable dbWild ['a'] [] :=
  search_name_wins stdTable dbWild ['a'] ['b'] (by decide) (by decide)

/-! ### School search (claim C7) -/

theorem insertSorted_perm {α : Type} (le : α → α → Bool) (a : α) (l : List α) :
    (insertSorted le a l).Perm (a :: l) := by
  induction l with
  | nil => exact List.Perm.refl _
  | cons b t ih =>
    by_cases h : le a b = true
    · rw [insertSorted, if_pos h]
    · rw [insertSorted, if_neg h]
      exact (ih.cons b).trans (List.Perm.swap a b t)

theorem sortByLe_perm {α : Type} (le : α → α → Bool) (l : List α) :
    (sortByLe le l).Perm l := by
  induction l with
  | nil => exact List.Perm.refl _
  | cons a t ih =>
    exact (insertSorted_perm le a (sortByLe le t)).trans (ih.cons a)

theorem resultLe_trans (a b c : PersonResult) (h1 : resultLe a b = true)
    (h2 : resultLe b c = true) : resultLe a c = true := by
  simp only [resultLe, decide_eq_true_eq] at *
  exact le_trans h1 h2

theorem resultLe_total (a b : PersonResult) : (resultLe a b || resultLe b a) = true := by
  simp only [resultLe, Bool.or_eq_true, decide_eq_true_eq]
  exact le_total a.name b.name

theorem schoolResults_ids_sublist (db : DB) (ids : List String) :
    ((ids.filterMap (fun pid =>
      (db.people.find? (fun p => p.person_id = pid)).map
        (fun p => (⟨pid, p.name, p.years, get_person_affiliations db pid⟩ : PersonResult)))).map
      (fun r => r.person_id)).Sublist ids := by
  induction ids with
  | nil => simp
  | cons a t ih =>
    cases hF : (db.people.find? (fun p => p.person_id = a)).map
        (fun p => (⟨a, p.name, p.years, get_person_affiliations db a⟩ : PersonResult)) with
    | none =>
      simp only [List.filterMap_cons, hF]
      exact ih.cons a
    | some r =>
      have hr : r.person_id = a := by
        rw [Option.map_eq_some'] at hF
        obtain ⟨p, _, hp2⟩ := hF
        rw [← hp2]
      simp only [List.filterMap_cons, hF, List.map_cons, hr]
      exact ih.cons₂ a

theorem searchBySchool_eq (T : UnicodeTable) (db : DB) (q : List Char) :
    searchBySchool T db q =
      match db.schools.find? (fun s =>
          likeM (likePattern (normalize_search_text T q)) s.school_name_normalized.data) with
      | none => SearchOutcome.schoolNotFound
      | some s =>
        SearchOutcome.results (sortByLe resultLe
          (((schoolStudentIds db s ++ schoolAdvisorIds db s).dedup).filterMap (fun pid =>
            (db.people.find? (fun p => p.person_id = pid)).map
              (fun p => (⟨pid, p.name, p.years,
                get_person_affiliations db pid⟩ : PersonResult))))) := rfl

/-- C7 (amended): when no stored school's normalized name LIKE-matches
`%query%` (SQL LIKE semantics — the query's own `%`/`_` act as
wildcards, and for wildcard-free queries the match is exactly substring
containment), the school search answers the explicit "University not
found" signal, which is a different value from an empty result list;
when some school matches, the first matching school is used and the
results are exactly the dedup-by-id union of dissertation authors and
advisors at that school that exist in `people`, sorted by name. -/
theorem searchBySchool_spec (T : UnicodeTable) (db : DB) (q : List Char) :
    ((∀ s ∈ db.schools,
        likeM (likePattern (normalize_search_text T q)) s.school_name_normalized.data = false) →
      searchBySchool T db q = SearchOutcome.schoolNotFound) ∧
    (∀ rs, searchBySchool T db q = SearchOutcome.results rs →
      ∃ s, s ∈ db.schools ∧
        likeM (likePattern (normalize_search_text T q)) s.school_name_normalized.data = true ∧
        (rs.map (fun r => r.person_id)).Nodup ∧
        rs.Pairwise (fun a b => a.name ≤ b.name) ∧
        (∀ r ∈ rs,
          (r.person_id ∈ schoolStudentIds db s ∨ r.person_id ∈ schoolAdvisorIds db s) ∧
          ∃ p, p ∈ db.people ∧ p.person_id = r.person_id) ∧
        (∀ pid, (pid ∈ schoolStudentIds db s ∨ pid ∈ schoolAdvisorIds db s) →
          (∃ p ∈ db.people, p.person_id = pid) → ∃ r ∈ rs, r.person_id = pid)) ∧
    SearchOutcome.schoolNotFound ≠ SearchOutcome.results [] := by
  refine ⟨?_, ?_, by decide⟩
  · intro hall
    rw [searchBySchool_eq]
    have hnone : db.schools.find? (fun s =>
        likeM (likePattern (normalize_search_text T q)) s.school_name_normalized.data) = none := by
      rw [List.find?_eq_none]
      intro s hs
      simp [hall s hs]
    rw [hnone]
  · intro rs hrs
    rw [searchBySchool_eq] at hrs
    cases hfind : db.schools.find? (fun s =>
        likeM (likePattern (normalize_search_text T q)) s.school_name_normalized.data) with
    | none =>
      rw [hfind] at hrs
      exact absurd hrs (by simp)
    | some s =>
      rw [hfind] at hrs
      simp only [SearchOutcome.results.injEq] at hrs
      refine ⟨s, List.mem_of_find?_eq_some hfind, by simpa using List.find?_some hfind,
        ?_, ?_, ?_, ?_⟩
      · rw [← hrs]
        have hperm := (sortByLe_perm resultLe
          (((schoolStudentIds db s ++ schoolAdvisorIds db s).dedup).filterMap (fun pid =>
            (db.people.find? (fun p => p.person_id = pid)).map
              (fun p => (⟨pid, p.name, p.years,
                get_person_affiliations db pid⟩ : PersonResult))))).map (fun r => r.person_id)
        rw [List.Perm.nodup_iff hperm]
        refine List.Nodup.sublist (schoolResults_ids_sublist db _) ?_
        exact List.nodup_dedup _
      · rw [← hrs]
        have hsorted := sortByLe_pairwise resultLe_trans resultLe_total
          (((schoolStudentIds db s ++ schoolAdvisorIds db s).dedup).filterMap (fun pid =>
            (db.people.find? (fun p => p.person_id = pid)).map
              (fun p => (⟨pid, p.name, p.years,
                get_person_affiliations db pid⟩ : PersonResult))))
        refine hsorted.imp ?_
        intro a b hab
        simpa [resultLe] using hab
      · intro r hr
        rw [← hrs, mem_sortByLe, List.mem_filterMap] at hr
        obtain ⟨pid, hpid, hF⟩ := hr
        rw [Option.map_eq_some'] at hF
        obtain ⟨p, hfp, hbuild⟩ := hF
        have hrpid : r.person_id = pid := by rw [← hbuild]
        have hppid : p.person_id = pid := by
          have := List.find?_some hfp
          simpa using this
        rw [List.mem_dedup, List.mem_append] at hpid
        rw [hrpid]
        exact ⟨hpid, p, List.mem_of_find?_eq_some hfp, hppid⟩
      · intro pid hpid ⟨p, hp, hppid⟩
        have hsome : (db.people.find? (fun p => p.person_id = pid)).isSome = true := by
          rw [List.find?_isSome]
          exact ⟨p, hp, by simp [hppid]⟩
        rw [Option.isSome_iff_exists] at hsome
        obtain ⟨p', hfp'⟩ := hsome
        refine ⟨⟨pid, p'.name, p'.years, get_person_affiliations db pid⟩, ?_, rfl⟩
        rw [← hrs, mem_sortByLe, List.mem_filterMap]
        refine ⟨pid, ?_, ?_⟩
        · rw [List.mem_dedup, List.mem_append]
          exact hpid
        · rw [hfp']
          rfl

/-- C7 counterexample: the store holds one school with normalized name
"mat" and nobody in it; the query "m%t" is not a substring of "mat", so
the claim demands the not-found signal, yet the search answers an
(empty) result list because the query's `%` LIKE-matched "mat". -/
theorem searchBySchool_wildcard_cex :
    search stdTable dbSchoolMat [] qSchoolWild = SearchOutcome.results [] ∧
    dbSchoolMat.schools.map (fun s => s.school_name_normalized) = ["mat"] ∧
    normalize_search_text stdTable qSchoolWild = qSchoolWild ∧
    ¬ (qSchoolWild <:+: ("mat" : String).data) := by
  refine ⟨by decide, by decide, by decide, by decide⟩

/-! ### Affiliation aggregation (claims C6, C10) -/

theorem addStudentRow_eq (acc : List (String × Affil)) (row : String × String × String) :
    addStudentRow acc row =
      if row.1 = "" then acc
      else if acc.any (fun e => e.1 = affKey row.1 row.2.1) then acc
      else acc ++ [(affKey row.1 row.2.1, ⟨row.1, true, false, some row.2.2⟩)] := rfl

theorem addFacultyRow_eq (acc : List (String × Affil)) (row : String × String) :
    addFacultyRow acc row =
      if row.1 = "" then acc
      else if acc.any (fun e => e.1 = affKey row.1 row.2) then
        acc.map (fun e => if e.1 = affKey row.1 row.2 then setFaculty e else e)
      else acc ++ [(affKey row.1 row.2, ⟨row.1, false, true, none⟩)] := rfl

theorem foldl_preserve {α β : Type} (P : α → Prop) {f : α → β → α}
    (hstep : ∀ acc b, P acc → P (f acc b)) :
    ∀ (l : List β) (acc : α), P acc → P (l.foldl f acc) := by
  intro l
  induction l with
  | nil =>
    intro acc h
    exact h
  | cons b t ih =>
    intro acc h
    exact ih (f acc b) (hstep acc b h)

theorem upd_fst (key : String) (e : String × Affil) :
    (if e.1 = key then setFaculty e else e).1 = e.1 := by
  split
  · rfl
  · rfl

theorem addStudentRow_all (row : String × String × String) {acc : List (String × Affil)}
    (hacc : ∀ e ∈ acc, e.2.student = true ∧ e.2.faculty = false ∧ e.2.school ≠ "") :
    ∀ e ∈ addStudentRow acc row,
      e.2.student = true ∧ e.2.faculty = false ∧ e.2.school ≠ "" := by
  intro e he
  rw [addStudentRow_eq] at he
  by_cases h1 : row.1 = ""
  · rw [if_pos h1] at he
    exact hacc e he
  · rw [if_neg h1] at he
    by_cases h2 : acc.any (fun e => e.1 = affKey row.1 row.2.1) = true
    · rw [if_pos h2] at he
      exact hacc e he
    · rw [if_neg h2, List.mem_append] at he
      rcases he with he | he
      · exact hacc e he
      · rw [List.mem_singleton] at he
        subst he
        exact ⟨rfl, rfl, h1⟩

theorem keys_map_upd (key : String) (acc : List (String × Affil)) :
    (acc.map (fun e => if e.1 = key then setFaculty e else e)).map Prod.fst =
      acc.map Prod.fst := by
  rw [List.map_map]
  exact List.map_congr_left (fun e _ => upd_fst key e)

theorem mem_keys_addStudentRow (row : String × String × String)
    {acc : List (String × Affil)} {k : String} (h : k ∈ acc.map Prod.fst) :
    k ∈ (addStudentRow acc row).map Prod.fst := by
  rw [addStudentRow_eq]
  by_cases h1 : row.1 = ""
  · rw [if_pos h1]
    exact h
  · rw [if_neg h1]
    by_cases h2 : acc.any (fun e => e.1 = affKey row.1 row.2.1) = true
    · rw [if_pos h2]
      exact h
    · rw [if_neg h2, List.map_append, List.mem_append]
      exact Or.inl h

theorem mem_keys_addFacultyRow (row : String × String)
    {acc : List (String × Affil)} {k : String} (h : k ∈ acc.map Prod.fst) :
    k ∈ (addFacultyRow acc row).map Prod.fst := by
  rw [addFacultyRow_eq]
  by_cases h1 : row.1 = ""
  · rw [if_pos h1]
    exact h
  · rw [if_neg h1]
    by_cases h2 : acc.any (fun e => e.1 = affKey row.1 row.2) = true
    · rw [if_pos h2, keys_map_upd]
      exact h
    · rw [if_neg h2, List.map_append, List.mem_append]
      exact Or.inl h

theorem mem_keys_addStudentRow_self {row : String × String × String}
    (h1 : row.1 ≠ "") (acc : List (String × Affil)) :
    affKey row.1 row.2.1 ∈ (addStudentRow acc row).map Prod.fst := by
  rw [addStudentRow_eq, if_neg h1]
  by_cases h2 : acc.any (fun e => e.1 = affKey row.1 row.2.1) = true
  · rw [if_pos h2]
    rw [List.any_eq_true] at h2
    obtain ⟨e, he, hk⟩ := h2
    rw [List.mem_map]
    exact ⟨e, he, by simpa using hk⟩
  · rw [if_neg h2, List.map_append, List.mem_append]
    right
    simp

theorem nodup_keys_addStudentRow (row : String × String × String)
    {acc : List (String × Affil)} (h : (acc.map Prod.fst).Nodup) :
    ((addStudentRow acc row).map Prod.fst).Nodup := by
  rw [addStudentRow_eq]
  by_cases h1 : row.1 = ""
  · rw [if_pos h1]
    exact h
  · rw [if_neg h1]
    by_cases h2 : acc.any (fun e => e.1 = affKey row.1 row.2.1) = true
    · rw [if_pos h2]
      exact h
    · rw [if_neg h2, List.map_append, List.nodup_append]
      refine ⟨h, by simp, ?_⟩
      intro k hk hk2
      rw [List.mem_map] at hk
      obtain ⟨e, he, hke⟩ := hk
      rw [List.map_cons, List.map_nil, List.mem_singleton] at hk2
      rw [Bool.not_eq_true] at h2
      rw [List.any_eq_false] at h2
      exact h2 e he (by simp [hke, hk2])

theorem nodup_keys_addFacultyRow (row : String × String)
    {acc : List (String × Affil)} (h : (acc.map Prod.fst).Nodup) :
    ((addFacultyRow acc row).map Prod.fst).Nodup := by
  rw [addFacultyRow_eq]
  by_cases h1 : row.1 = ""
  · rw [if_pos h1]
    exact h
  · rw [if_neg h1]
    by_cases h2 : acc.any (fun e => e.1 = affKey row.1 row.2) = true
    · rw [if_pos h2, keys_map_upd]
      exact h
    · rw [if_neg h2, List.map_append, List.nodup_append]
      refine ⟨h, by simp, ?_⟩
      intro k hk hk2
      rw [List.mem_map] at hk
      obtain ⟨e, he, hke⟩ := hk
      rw [List.map_cons, List.map_nil, List.mem_singleton] at hk2
      rw [Bool.not_eq_true] at h2
      rw [List.any_eq_false] at h2
      exact h2 e he (by simp [hke, hk2])

theorem affMap_keys_nodup (db : DB) (pid : String) :
    ((affMap db pid).map Prod.fst).Nodup := by
  rw [affMap]
  refine foldl_preserve (fun acc : List (String × Affil) => (acc.map Prod.fst).Nodup)
    (fun acc b hh => nodup_keys_addFacultyRow b hh) _ _ ?_
  refine foldl_preserve (fun acc : List (String × Affil) => (acc.map Prod.fst).Nodup)
    (fun acc b hh => nodup_keys_addStudentRow b hh) _ _ ?_
  simp

theorem find?_isSome_of_mem_keys {acc : List (String × Affil)} {k : String}
    (h : k ∈ acc.map Prod.fst) :
    ∃ a, acc.find? (fun e => e.1 = k) = some a ∧ a ∈ acc := by
  have hsome : (acc.find? (fun e => e.1 = k)).isSome = true := by
    rw [List.find?_isSome]
    rw [List.mem_map] at h
    obtain ⟨e, he, hk⟩ := h
    exact ⟨e, he, by simp [hk]⟩
  rw [Option.isSome_iff_exists] at hsome
  obtain ⟨a, ha⟩ := hsome
  exact ⟨a, ha, List.mem_of_find?_eq_some ha⟩

theorem find?_addStudentRow_some (row : String × String × String)
    {acc : List (String × Affil)} {k : String} {a : String × Affil}
    (h : acc.find? (fun e => e.1 = k) = some a) :
    (addStudentRow acc row).find? (fun e => e.1 = k) = some a := by
  rw [addStudentRow_eq]
  by_cases h1 : row.1 = ""
  · rw [if_pos h1]
    exact h
  · rw [if_neg h1]
    by_cases h2 : acc.any (fun e => e.1 = affKey row.1 row.2.1) = true
    · rw [if_pos h2]
      exact h
    · rw [if_neg h2, List.find?_append, h]
      rfl

theorem comp_upd_fst (key k : String) :
    ((fun e : String × Affil => decide (e.1 = k)) ∘
      (fun e => if e.1 = key then setFaculty e else e)) =
      (fun e : String × Affil => decide (e.1 = k)) := by
  funext e
  simp only [Function.comp]
  rw [upd_fst]

theorem find?_addFacultyRow_some (row : String × String)
    {acc : List (String × Affil)} {k : String} {a : String × Affil}
    (h : acc.find? (fun e => e.1 = k) = some a) :
    (addFacultyRow acc row).find? (fun e => e.1 = k) = some a ∨
    (addFacultyRow acc row).find? (fun e => e.1 = k) = some (setFaculty a) := by
  rw [addFacultyRow_eq]
  by_cases h1 : row.1 = ""
  · rw [if_pos h1]
    exact Or.inl h
  · rw [if_neg h1]
    by_cases h2 : acc.any (fun e => e.1 = affKey row.1 row.2) = true
    · rw [if_pos h2, List.find?_map, comp_upd_fst, h]
      by_cases h3 : a.1 = affKey row.1 row.2
      · right
        simp [h3]
      · left
        simp [h3]
    · rw [if_neg h2, List.find?_append, h]
      exact Or.inl rfl

theorem find?_addFacultyRow_hit {row : String × String}
    {acc : List (String × Affil)} {a : String × Affil} (h1 : row.1 ≠ "")
    (h : acc.find? (fun e => e.1 = affKey row.1 row.2) = some a) :
    (addFacultyRow acc row).find? (fun e => e.1 = affKey row.1 row.2) =
      some (setFaculty a) := by
  rw [addFacultyRow_eq, if_neg h1]
  have hany : acc.any (fun e => e.1 = affKey row.1 row.2) = true := by
    rw [List.any_eq_true]
    refine ⟨a, List.mem_of_find?_eq_some h, ?_⟩
    have hpa := List.find?_some h
    simpa using hpa
  rw [if_pos hany, List.find?_map, comp_upd_fst, h]
  have h3 : a.1 = affKey row.1 row.2 := by simpa using List.find?_some h
  simp [h3]

theorem studentPass_student {rows : List (String × String × String)}
    {row : String × String × String} (hrow : row ∈ rows) (h1 : row.1 ≠ "") :
    ∃ a, (rows.foldl addStudentRow []).find? (fun e => e.1 = affKey row.1 row.2.1) =
        some a ∧ a.2.student = true := by
  obtain ⟨l1, l2, rfl⟩ := List.append_of_mem hrow
  have hall : ∀ e ∈ (l1 ++ row :: l2).foldl addStudentRow [],
      e.2.student = true ∧ e.2.faculty = false ∧ e.2.school ≠ "" := by
    refine foldl_preserve
      (fun acc : List (String × Affil) =>
        ∀ e ∈ acc, e.2.student = true ∧ e.2.faculty = false ∧ e.2.school ≠ "")
      (fun acc b hh => addStudentRow_all b hh) _ _ ?_
    simp
  have hmem : affKey row.1 row.2.1 ∈
      (((l1 ++ row :: l2).foldl addStudentRow []).map Prod.fst) := by
    rw [List.foldl_append, List.foldl_cons]
    refine foldl_preserve
      (fun acc : List (String × Affil) => affKey row.1 row.2.1 ∈ acc.map Prod.fst)
      (fun acc b hh => mem_keys_addStudentRow b hh) _ _ ?_
    exact mem_keys_addStudentRow_self h1 _
  obtain ⟨a, ha, hamem⟩ := find?_isSome_of_mem_keys hmem
  exact ⟨a, ha, (hall a hamem).1⟩

theorem affMap_student_faculty {db : DB} {pid : String}
    {srow : String × String × String} {frow : String × String}
    (hs : srow ∈ studentRows db pid) (hs1 : srow.1 ≠ "")
    (hf : frow ∈ facultyRows db pid) (hf1 : frow.1 ≠ "")
    (hkey : affKey frow.1 frow.2 = affKey srow.1 srow.2.1) :
    ∃ a, (affMap db pid).find? (fun e => e.1 = affKey srow.1 srow.2.1) = some a ∧
      a.2.student = true ∧ a.2.faculty = true := by
  obtain ⟨a0, ha0, ha0s⟩ := studentPass_student hs hs1
  obtain ⟨l1, l2, hfr⟩ := List.append_of_mem hf
  rw [affMap, hfr, List.foldl_append, List.foldl_cons]
  have hQ1 : ∃ a, (l1.foldl addFacultyRow ((studentRows db pid).foldl addStudentRow [])).find?
      (fun e => e.1 = affKey srow.1 srow.2.1) = some a ∧ a.2.student = true := by
    refine foldl_preserve
      (fun acc : List (String × Affil) =>
        ∃ a, acc.find? (fun e => e.1 = affKey srow.1 srow.2.1) = some a ∧
          a.2.student = true)
      ?_ _ _ ⟨a0, ha0, ha0s⟩
    intro acc b hh
    obtain ⟨a, ha, has⟩ := hh
    rcases find?_addFacultyRow_some b ha with h | h
    · exact ⟨a, h, has⟩
    · exact ⟨setFaculty a, h, has⟩
  obtain ⟨a1, ha1, ha1s⟩ := hQ1
  have ha1' : (l1.foldl addFacultyRow ((studentRows db pid).foldl addStudentRow [])).find?
      (fun e => e.1 = affKey frow.1 frow.2) = some a1 := by
    rw [hkey]
    exact ha1
  have hhit := find?_addFacultyRow_hit hf1 ha1'
  rw [hkey] at hhit
  refine foldl_preserve
    (fun acc : List (String × Affil) =>
      ∃ a, acc.find? (fun e => e.1 = affKey srow.1 srow.2.1) = some a ∧
        a.2.student = true ∧ a.2.faculty = true)
    ?_ l2 _ ⟨setFaculty a1, hhit, ha1s, rfl⟩
  intro acc b hh
  obtain ⟨a, ha, has, haf⟩ := hh
  rcases find?_addFacultyRow_some b ha with h | h
  · exact ⟨a, h, has, haf⟩
  · exact ⟨setFaculty a, h, has, rfl⟩

/-- C6: a person who authored a dissertation at a school (non-empty
school name) and also appears in an advisor slot of some dissertation at
the same school key (id if present, else raw name) gets exactly one
affiliation entry under that key — the dict's keys are pairwise distinct
— and that entry has both `student` and `faculty` true: the faculty pass
marked the entry the student pass created instead of adding another. -/
theorem get_person_affiliations_student_and_faculty (db : DB) (pid : String)
    (d d2 : DissRow) (a : AdvisorRow)
    (hd : d ∈ db.dissertations) (hda : d.author_id = pid) (hds : d.school ≠ "")
    (ha : a ∈ db.advisors) (haid : a.advisor_id = pid)
    (hd2 : d2 ∈ db.dissertations) (hdid : d2.dissertation_id = a.dissertation_id)
    (hd2s : d2.school ≠ "")
    (hkey : affKey d2.school d2.school_id = affKey d.school d.school_id) :
    ((affMap db pid).map Prod.fst).Nodup ∧
    ∃ e, (affMap db pid).find? (fun x => x.1 = affKey d.school d.school_id) = some e ∧
      e.2 ∈ get_person_affiliations db pid ∧
      e.2.student = true ∧ e.2.faculty = true := by
  refine ⟨affMap_keys_nodup db pid, ?_⟩
  have hs : (d.school, d.school_id, d.year) ∈ studentRows db pid := by
    rw [studentRows, List.mem_dedup, List.mem_map]
    exact ⟨d, List.mem_filter.mpr ⟨hd, by simp [hda]⟩, rfl⟩
  have hf : (d2.school, d2.school_id) ∈ facultyRows db pid := by
    rw [facultyRows, List.mem_dedup, List.mem_map]
    refine ⟨d2, ?_, rfl⟩
    rw [advisedDissertations, List.mem_flatMap]
    exact ⟨a, List.mem_filter.mpr ⟨ha, by simp [haid]⟩,
      List.mem_filter.mpr ⟨hd2, by simp [hdid]⟩⟩
  obtain ⟨e, he, hes, hef⟩ := affMap_student_faculty hs hds hf hd2s hkey
  refine ⟨e, he, ?_, hes, hef⟩
  rw [get_person_affiliations, List.mem_map]
  exact ⟨e, List.mem_of_find?_eq_some he, rfl⟩

theorem get_person_affiliations_student_and_faculty_witness :
    ((affMap dbBoth "P1").map Prod.fst).Nodup ∧
    ∃ e, (affMap dbBoth "P1").find? (fun x => x.1 = affKey "X" "s1") = some e ∧
      e.2 ∈ get_person_affiliations dbBoth "P1" ∧
      e.2.student = true ∧ e.2.faculty = true :=
  get_person_affiliations_student_and_faculty dbBoth "P1"
    ⟨"d1", "P1", "", "", "1950", "X", "s1", "", ""⟩
    ⟨"d2", "P2", "", "", "1980", "X", "s1", "", ""⟩
    ⟨"d2", "P1", "", "", 1⟩
    (by decide) (by decide) (by decide) (by decide) (by decide)
    (by decide) (by decide) (by decide) (by decide)

/-- C10: every affiliation entry returned carries at least one of the
`student`/`faculty` flags and a non-empty school display name. -/
theorem get_person_affiliations_flags (db : DB) (pid : String) (e : Affil)
    (he : e ∈ get_person_affiliations db pid) :
    (e.student = true ∨ e.faculty = true) ∧ e.school ≠ "" := by
  rw [get_person_affiliations, List.mem_map] at he
  obtain ⟨e2, he2, rfl⟩ := he
  have hW : ∀ x ∈ affMap db pid,
      (x.2.student = true ∨ x.2.faculty = true) ∧ x.2.school ≠ "" := by
    rw [affMap]
    refine foldl_preserve
      (fun acc : List (String × Affil) =>
        ∀ x ∈ acc, (x.2.student = true ∨ x.2.faculty = true) ∧ x.2.school ≠ "")
      ?_ _ _ ?_
    · intro acc b hh x hx
      rw [addFacultyRow_eq] at hx
      by_cases h1 : b.1 = ""
      · rw [if_pos h1] at hx
        exact hh x hx
      · rw [if_neg h1] at hx
        by_cases h2 : acc.any (fun e => e.1 = affKey b.1 b.2) = true
        · rw [if_pos h2] at hx
          rw [List.mem_map] at hx
          obtain ⟨y, hy, hxy⟩ := hx
          subst hxy
          by_cases h3 : y.1 = affKey b.1 b.2
          · rw [if_pos h3]
            exact ⟨Or.inr rfl, (hh y hy).2⟩
          · rw [if_neg h3]
            exact hh y hy
        · rw [if_neg h2, List.mem_append] at hx
          rcases hx with hx | hx
          · exact hh x hx
          · rw [List.mem_singleton] at hx
            subst hx
            exact ⟨Or.inr rfl, h1⟩
    · intro x hx
      have hall := foldl_preserve
        (fun acc : List (String × Affil) =>
          ∀ y ∈ acc, y.2.student = true ∧ y.2.faculty = false ∧ y.2.school ≠ "")
        (fun acc b hh => addStudentRow_all b hh) (studentRows db pid) [] (by simp)
      obtain ⟨h1, _, h3⟩ := hall x hx
      exact ⟨Or.inl h1, h3⟩
  exact hW e2 he2

theorem get_person_affiliations_flags_witness :
    ((⟨"X", true, true, some "1950"⟩ : Affil).student = true ∨
      (⟨"X", true, true, some "1950"⟩ : Affil).faculty = true) ∧
    (⟨"X", true, true, some "1950"⟩ : Affil).school ≠ "" :=
  get_person_affiliations_flags dbBoth "P1" ⟨"X", true, true, some "1950"⟩ (by decide)

/-! ### Descendant counter: basic equations and monotonicity -/

theorem gdcStudents_nil (f : String → Finset String → (Nat × Nat) × Finset String)
    (vis : Finset String) : gdcStudents f [] vis = ((0, 0), vis) := rfl

theorem gdcStudents_cons (f : String → Finset String → (Nat × Nat) × Finset String)
    (s : String) (rest : List String) (vis : Finset String) :
    gdcStudents f (s :: rest) vis =
      (((f s vis).1.1 + (gdcStudents f rest (f s vis).2).1.1,
        max ((f s vis).1.2 + 1) (gdcStudents f rest (f s vis).2).1.2),
       (gdcStudents f rest (f s vis).2).2) := rfl

theorem gdcVisit_zero (db : DB) (pid : String) (vis : Finset String) :
    gdcVisit db 0 pid vis = ((0, 0), vis) := rfl

theorem gdcVisit_succ (db : DB) (fuel : Nat) (pid : String) (vis : Finset String) :
    gdcVisit db (fuel + 1) pid vis =
      if pid ∈ vis then ((0, 0), vis)
      else if (directStudents db pid).isEmpty then ((0, 0), insert pid vis)
      else
        (((directStudents db pid).length +
            (gdcStudents (gdcVisit db fuel) (directStudents db pid) (insert pid vis)).1.1,
          max 1 (gdcStudents (gdcVisit db fuel) (directStudents db pid) (insert pid vis)).1.2),
         (gdcStudents (gdcVisit db fuel) (directStudents db pid) (insert pid vis)).2) := rfl

theorem gdcStudents_vis_mono (f : String → Finset String → (Nat × Nat) × Finset String)
    (hf : ∀ s v, v ⊆ (f s v).2) :
    ∀ (l : List String) (vis : Finset String), vis ⊆ (gdcStudents f l vis).2 := by
  intro l
  induction l with
  | nil =>
    intro vis
    rw [gdcStudents_nil]
  | cons s rest ih =>
    intro vis
    rw [gdcStudents_cons]
    exact (hf s vis).trans (ih (f s vis).2)

theorem gdcVisit_vis_mono (db : DB) :
    ∀ (fuel : Nat) (pid : String) (vis : Finset String), vis ⊆ (gdcVisit db fuel pid vis).2 := by
  intro fuel
  induction fuel with
  | zero =>
    intro pid vis
    rw [gdcVisit_zero]
  | succ fuel ih =>
    intro pid vis
    rw [gdcVisit_succ]
    by_cases hmem : pid ∈ vis
    · rw [if_pos hmem]
    · rw [if_neg hmem]
      by_cases hstud : (directStudents db pid).isEmpty
      · rw [if_pos hstud]
        exact Finset.subset_insert pid vis
      · rw [if_neg hstud]
        exact (Finset.subset_insert pid vis).trans
          (gdcStudents_vis_mono (gdcVisit db fuel) (ih) (directStudents db pid) (insert pid vis))

/-! ### Descendant counter: the total is a sum over the visited set -/

theorem sum_sdiff_split {s t u : Finset String} (h1 : s ⊆ t) (h2 : t ⊆ u)
    (g : String → Nat) :
    Finset.sum (u \ s) g = Finset.sum (u \ t) g + Finset.sum (t \ s) g := by
  have hdisj : Disjoint (u \ t) (t \ s) := by
    rw [Finset.disjoint_left]
    intro a ha hb
    rw [Finset.mem_sdiff] at ha hb
    exact ha.2 hb.1
  rw [← Finset.sum_union hdisj]
  congr 1
  ext a
  simp only [Finset.mem_sdiff, Finset.mem_union]
  constructor
  · rintro ⟨hau, has⟩
    by_cases hat : a ∈ t
    · exact Or.inr ⟨hat, has⟩
    · exact Or.inl ⟨hau, hat⟩
  · rintro (⟨hau, hat⟩ | ⟨hat, has⟩)
    · exact ⟨hau, fun hs => hat (h1 hs)⟩
    · exact ⟨h2 hat, has⟩

theorem insert_sdiff_self {pid : String} {vis : Finset String} (h : pid ∉ vis) :
    insert pid vis \ vis = {pid} := by
  ext a
  simp only [Finset.mem_sdiff, Finset.mem_insert, Finset.mem_singleton]
  constructor
  · rintro ⟨ha | ha, hav⟩
    · exact ha
    · exact absurd ha hav
  · rintro rfl
    exact ⟨Or.inl rfl, h⟩

theorem gdcStudents_total (db : DB) (f : String → Finset String → (Nat × Nat) × Finset String)
    (hmono : ∀ s v, v ⊆ (f s v).2)
    (hf : ∀ s v, (f s v).1.1 =
      Finset.sum ((f s v).2 \ v) (fun x => (directStudents db x).length)) :
    ∀ (l : List String) (vis : Finset String),
      (gdcStudents f l vis).1.1 =
        Finset.sum ((gdcStudents f l vis).2 \ vis)
          (fun x => (directStudents db x).length) := by
  intro l
  induction l with
  | nil =>
    intro vis
    rw [gdcStudents_nil]
    simp
  | cons s rest ih =>
    intro vis
    rw [gdcStudents_cons]
    have h1 : vis ⊆ (f s vis).2 := hmono s vis
    have h2 : (f s vis).2 ⊆ (gdcStudents f rest (f s vis).2).2 :=
      gdcStudents_vis_mono f hmono rest (f s vis).2
    rw [sum_sdiff_split h1 h2, hf s vis, ih (f s vis).2]
    exact Nat.add_comm _ _

theorem gdcVisit_total (db : DB) :
    ∀ (fuel : Nat) (pid : String) (vis : Finset String),
      (gdcVisit db fuel pid vis).1.1 =
        Finset.sum ((gdcVisit db fuel pid vis).2 \ vis)
          (fun x => (directStudents db x).length) := by
  intro fuel
  induction fuel with
  | zero =>
    intro pid vis
    rw [gdcVisit_zero]
    simp
  | succ fuel ih =>
    intro pid vis
    rw [gdcVisit_succ]
    by_cases hmem : pid ∈ vis
    · rw [if_pos hmem]
      simp
    · rw [if_neg hmem]
      by_cases hstud : (directStudents db pid).isEmpty
      · rw [if_pos hstud]
        rw [List.isEmpty_iff] at hstud
        simp [insert_sdiff_self hmem, hstud]
      · rw [if_neg hstud]
        have h1 : vis ⊆ insert pid vis := Finset.subset_insert pid vis
        have h2 : insert pid vis ⊆
            (gdcStudents (gdcVisit db fuel) (directStudents db pid) (insert pid vis)).2 :=
          gdcStudents_vis_mono (gdcVisit db fuel) (gdcVisit_vis_mono db fuel)
            (directStudents db pid) (insert pid vis)
        show (directStudents db pid).length +
            (gdcStudents (gdcVisit db fuel) (directStudents db pid) (insert pid vis)).1.1 = _
        rw [sum_sdiff_split h1 h2, insert_sdiff_self hmem, Finset.sum_singleton]
        rw [gdcStudents_total db (gdcVisit db fuel) (gdcVisit_vis_mono db fuel) (ih)]
        exact Nat.add_comm _ _

/-! ### Descendant counter: the depth is the length of some walk -/

theorem gdcStudents_walk (db : DB) (f : String → Finset String → (Nat × Nat) × Finset String)
    (hf : ∀ s v, WalkLen db s (f s v).1.2) :
    ∀ (l : List String) (vis : Finset String) (u : String),
      (∀ s ∈ l, advStep db u s) →
      (gdcStudents f l vis).1.2 = 0 ∨ WalkLen db u (gdcStudents f l vis).1.2 := by
  intro l
  induction l with
  | nil =>
    intro vis u _
    left
    rw [gdcStudents_nil]
  | cons s rest ih =>
    intro vis u h
    rw [gdcStudents_cons]
    rcases max_choice ((f s vis).1.2 + 1) ((gdcStudents f rest (f s vis).2).1.2) with hm | hm
    · right
      show WalkLen db u (max ((f s vis).1.2 + 1) ((gdcStudents f rest (f s vis).2).1.2))
      rw [hm]
      exact WalkLen.succ u s (f s vis).1.2 (h s (List.mem_cons_self s rest)) (hf s vis)
    · show (max ((f s vis).1.2 + 1) ((gdcStudents f rest (f s vis).2).1.2) = 0) ∨ _
      rw [hm]
      exact ih (f s vis).2 u (fun x hx => h x (List.mem_cons_of_mem s hx))

theorem gdcVisit_walk (db : DB) :
    ∀ (fuel : Nat) (pid : String) (vis : Finset String),
      WalkLen db pid (gdcVisit db fuel pid vis).1.2 := by
  intro fuel
  induction fuel with
  | zero =>
    intro pid vis
    exact WalkLen.zero pid
  | succ fuel ih =>
    intro pid vis
    rw [gdcVisit_succ]
    by_cases hmem : pid ∈ vis
    · rw [if_pos hmem]
      exact WalkLen.zero pid
    · rw [if_neg hmem]
      by_cases hstud : (directStudents db pid).isEmpty
      · rw [if_pos hstud]
        exact WalkLen.zero pid
      · rw [if_neg hstud]
        show WalkLen db pid
          (max 1 (gdcStudents (gdcVisit db fuel) (directStudents db pid) (insert pid vis)).1.2)
        rcases max_choice 1
            ((gdcStudents (gdcVisit db fuel) (directStudents db pid) (insert pid vis)).1.2)
          with hm | hm
        · rw [hm]
          have hne : directStudents db pid ≠ [] := by
            intro h
            rw [h] at hstud
            exact hstud rfl
          obtain ⟨s, hs⟩ := List.exists_mem_of_ne_nil _ hne
          exact WalkLen.succ pid s 0 hs (WalkLen.zero s)
        · rw [hm]
          rcases gdcStudents_walk db (gdcVisit db fuel) (fun s v => ih s v)
              (directStudents db pid) (insert pid vis) pid (fun s hs => hs) with h0 | hw
          · rw [h0] at hm
            simp at hm
          · exact hw

/-! ### Descendant counter: the visited set is the reachable set -/

theorem gdcStudents_reach (db : DB) (f : String → Finset String → (Nat × Nat) × Finset String)
    (hf : ∀ s v x, x ∈ (f s v).2 → x ∈ v ∨ Relation.ReflTransGen (advStep db) s x) :
    ∀ (l : List String) (vis : Finset String) (x : String),
      x ∈ (gdcStudents f l vis).2 →
      x ∈ vis ∨ ∃ s ∈ l, Relation.ReflTransGen (advStep db) s x := by
  intro l
  induction l with
  | nil =>
    intro vis x hx
    rw [gdcStudents_nil] at hx
    exact Or.inl hx
  | cons s rest ih =>
    intro vis x hx
    rw [gdcStudents_cons] at hx
    rcases ih (f s vis).2 x hx with hx1 | ⟨s', hs', hr⟩
    · rcases hf s vis x hx1 with hx2 | hr
      · exact Or.inl hx2
      · exact Or.inr ⟨s, List.mem_cons_self s rest, hr⟩
    · exact Or.inr ⟨s', List.mem_cons_of_mem s hs', hr⟩

theorem gdcVisit_reach (db : DB) :
    ∀ (fuel : Nat) (pid : String) (vis : Finset String) (x : String),
      x ∈ (gdcVisit db fuel pid vis).2 →
      x ∈ vis ∨ Relation.ReflTransGen (advStep db) pid x := by
  intro fuel
  induction fuel with
  | zero =>
    intro pid vis x hx
    rw [gdcVisit_zero] at hx
    exact Or.inl hx
  | succ fuel ih =>
    intro pid vis x hx
    rw [gdcVisit_succ] at hx
    by_cases hmem : pid ∈ vis
    · rw [if_pos hmem] at hx
      exact Or.inl hx
    · rw [if_neg hmem] at hx
      by_cases hstud : (directStudents db pid).isEmpty
      · rw [if_pos hstud] at hx
        rcases Finset.mem_insert.mp hx with rfl | hx
        · exact Or.inr Relation.ReflTransGen.refl
        · exact Or.inl hx
      · rw [if_neg hstud] at hx
        rcases gdcStudents_reach db (gdcVisit db fuel) (fun s v y => ih s v y)
            (directStudents db pid) (insert pid vis) x hx with hx1 | ⟨s, hs, hr⟩
        · rcases Finset.mem_insert.mp hx1 with rfl | hx2
          · exact Or.inr Relation.ReflTransGen.refl
          · exact Or.inl hx2
        · exact Or.inr (Relation.ReflTransGen.head hs hr)

theorem mem_universe_of_students_ne {db : DB} {pid : String}
    (h : (directStudents db pid).isEmpty ≠ true) : pid ∈ personUniverse db := by
  have hne : directStudents db pid ≠ [] := by
    intro h0
    rw [h0] at h
    exact h rfl
  obtain ⟨s, hs⟩ := List.exists_mem_of_ne_nil _ hne
  rw [directStudents, List.mem_filter, List.mem_dedup, List.mem_map] at hs
  obtain ⟨⟨d, hd, _⟩, _⟩ := hs
  rw [advisedDissertations, List.mem_flatMap] at hd
  obtain ⟨a, ha, _⟩ := hd
  rw [List.mem_filter] at ha
  obtain ⟨ha1, ha2⟩ := ha
  rw [personUniverse, Finset.mem_union]
  left
  rw [List.mem_toFinset, List.mem_map]
  refine ⟨a, ha1, ?_⟩
  simpa using ha2

theorem card_sdiff_insert_lt {db : DB} {pid : String} {vis : Finset String}
    (hpid : pid ∈ personUniverse db) (hmem : pid ∉ vis) :
    (personUniverse db \ insert pid vis).card + 1 = (personUniverse db \ vis).card := by
  have heq : personUniverse db \ insert pid vis = (personUniverse db \ vis).erase pid := by
    ext a
    simp only [Finset.mem_sdiff, Finset.mem_insert, Finset.mem_erase]
    tauto
  rw [heq, Finset.card_erase_of_mem (by rw [Finset.mem_sdiff]; exact ⟨hpid, hmem⟩)]
  have hpos : 0 < (personUniverse db \ vis).card := by
    rw [Finset.card_pos]
    exact ⟨pid, by rw [Finset.mem_sdiff]; exact ⟨hpid, hmem⟩⟩
  omega

theorem gdcStudents_closed (db : DB) (f : String → Finset String → (Nat × Nat) × Finset String)
    (hmono : ∀ s v, v ⊆ (f s v).2) (vis1 : Finset String)
    (hf : ∀ s v, vis1 ⊆ v →
      (∀ u, u ∈ (f s v).2 → u ∉ v → ∀ t ∈ directStudents db u, t ∈ (f s v).2) ∧
      s ∈ (f s v).2) :
    ∀ (l : List String) (vis : Finset String), vis1 ⊆ vis →
      (∀ u, u ∈ (gdcStudents f l vis).2 → u ∉ vis →
        ∀ t ∈ directStudents db u, t ∈ (gdcStudents f l vis).2) ∧
      (∀ s ∈ l, s ∈ (gdcStudents f l vis).2) := by
  intro l
  induction l with
  | nil =>
    intro vis _
    rw [gdcStudents_nil]
    exact ⟨fun u hu hnu _ _ => absurd hu hnu, fun s hs => absurd hs (List.not_mem_nil s)⟩
  | cons s rest ih =>
    intro vis hvis
    rw [gdcStudents_cons]
    have hv1 : vis1 ⊆ (f s vis).2 := hvis.trans (hmono s vis)
    obtain ⟨ihc, ihm⟩ := ih (f s vis).2 hv1
    have hfc := hf s vis hvis
    constructor
    · intro u hu hnu t ht
      by_cases hu1 : u ∈ (f s vis).2
      · have ht1 := hfc.1 u hu1 hnu t ht
        exact gdcStudents_vis_mono f hmono rest (f s vis).2 ht1
      · exact ihc u hu hu1 t ht
    · intro x hx
      rcases List.mem_cons.mp hx with rfl | hx
      · exact gdcStudents_vis_mono f hmono rest (f x vis).2 hfc.2
      · exact ihm x hx

theorem gdcVisit_closed (db : DB) :
    ∀ (fuel : Nat) (pid : String) (vis : Finset String),
      (personUniverse db \ vis).card < fuel →
      (∀ u, u ∈ (gdcVisit db fuel pid vis).2 → u ∉ vis →
        ∀ t ∈ directStudents db u, t ∈ (gdcVisit db fuel pid vis).2) ∧
      pid ∈ (gdcVisit db fuel pid vis).2 := by
  intro fuel
  induction fuel with
  | zero =>
    intro pid vis hcard
    exact absurd hcard (Nat.not_lt_zero _)
  | succ fuel ih =>
    intro pid vis hcard
    rw [gdcVisit_succ]
    by_cases hmem : pid ∈ vis
    · rw [if_pos hmem]
      exact ⟨fun u hu hnu _ _ => absurd hu hnu, hmem⟩
    · rw [if_neg hmem]
      by_cases hstud : (directStudents db pid).isEmpty
      · rw [if_pos hstud]
        refine ⟨?_, Finset.mem_insert_self pid vis⟩
        intro u hu hnu t ht
        have hupid : u = pid := by
          rcases Finset.mem_insert.mp hu with h | h
          · exact h
          · exact absurd h hnu
        subst hupid
        rw [List.isEmpty_iff] at hstud
        rw [hstud] at ht
        exact absurd ht (List.not_mem_nil t)
      · rw [if_neg hstud]
        have hpidU : pid ∈ personUniverse db := mem_universe_of_students_ne hstud
        have hcard1 : (personUniverse db \ insert pid vis).card < fuel := by
          have := card_sdiff_insert_lt hpidU hmem
          omega
        have hlist := gdcStudents_closed db (gdcVisit db fuel) (gdcVisit_vis_mono db fuel)
          (insert pid vis)
          (fun s v hv => ih s v (lt_of_le_of_lt
            (Finset.card_le_card (Finset.sdiff_subset_sdiff (Finset.Subset.refl _) hv))
            hcard1))
          (directStudents db pid) (insert pid vis) (Finset.Subset.refl _)
        constructor
        · intro u hu hnu t ht
          by_cases hup : u = pid
          · subst hup
            exact hlist.2 t ht
          · have hu1 : u ∉ insert pid vis := by
              intro hu1
              rcases Finset.mem_insert.mp hu1 with h | h
              · exact hup h
              · exact hnu h
            exact hlist.1 u hu hu1 t ht
        · exact gdcStudents_vis_mono (gdcVisit db fuel) (gdcVisit_vis_mono db fuel)
            (directStudents db pid) (insert pid vis) (Finset.mem_insert_self pid vis)

theorem gdcVisit_complete (db : DB) (pid : String) :
    ∀ x, Relation.ReflTransGen (advStep db) pid x →
      x ∈ (gdcVisit db (fuelBound db) pid ∅).2 := by
  have hcard : (personUniverse db \ ∅).card < fuelBound db := by
    rw [Finset.sdiff_empty, fuelBound]
    omega
  have hcl := gdcVisit_closed db (fuelBound db) pid ∅ hcard
  intro x hx
  induction hx with
  | refl => exact hcl.2
  | tail _ hbc ihb =>
    rename_i b c _
    exact hcl.1 b ihb (Finset.not_mem_empty b) c hbc

/-! ### Descendant counter: fuel indifference (termination) -/

theorem gdcStudents_congr
    (f g : String → Finset String → (Nat × Nat) × Finset String)
    (hmono : ∀ s v, v ⊆ (g s v).2) (vis1 : Finset String)
    (hfg : ∀ s v, vis1 ⊆ v → f s v = g s v) :
    ∀ (l : List String) (vis : Finset String), vis1 ⊆ vis →
      gdcStudents f l vis = gdcStudents g l vis := by
  intro l
  induction l with
  | nil =>
    intro vis _
    rfl
  | cons s rest ih =>
    intro vis hvis
    rw [gdcStudents_cons, gdcStudents_cons, hfg s vis hvis,
      ih (g s vis).2 (hvis.trans (hmono s vis))]

theorem gdcVisit_fuel_succ (db : DB) :
    ∀ (fuel : Nat) (pid : String) (vis : Finset String),
      (personUniverse db \ vis).card < fuel →
      gdcVisit db (fuel + 1) pid vis = gdcVisit db fuel pid vis := by
  intro fuel
  induction fuel with
  | zero =>
    intro pid vis hcard
    exact absurd hcard (Nat.not_lt_zero _)
  | succ fuel ih =>
    intro pid vis hcard
    rw [gdcVisit_succ db (fuel + 1), gdcVisit_succ db fuel]
    by_cases hmem : pid ∈ vis
    · rw [if_pos hmem, if_pos hmem]
    · rw [if_neg hmem, if_neg hmem]
      by_cases hstud : (directStudents db pid).isEmpty
      · rw [if_pos hstud, if_pos hstud]
      · rw [if_neg hstud, if_neg hstud]
        have hpidU : pid ∈ personUniverse db := mem_universe_of_students_ne hstud
        have hcard1 : (personUniverse db \ insert pid vis).card < fuel := by
          have := card_sdiff_insert_lt hpidU hmem
          omega
        rw [gdcStudents_congr (gdcVisit db (fuel + 1)) (gdcVisit db fuel)
          (gdcVisit_vis_mono db fuel) (insert pid vis)
          (fun s v hv => ih s v (lt_of_le_of_lt
            (Finset.card_le_card (Finset.sdiff_subset_sdiff (Finset.Subset.refl _) hv))
            hcard1))
          (directStudents db pid) (insert pid vis) (Finset.Subset.refl _)]

theorem gdcVisit_fuel_ge (db : DB) (pid : String) :
    ∀ fuel, fuelBound db ≤ fuel →
      gdcVisit db fuel pid ∅ = gdcVisit db (fuelBound db) pid ∅ := by
  intro fuel
  induction fuel with
  | zero =>
    intro h
    have : 1 ≤ fuelBound db := by
      rw [fuelBound]
      omega
    omega
  | succ fuel ih =>
    intro h
    rcases Nat.lt_or_ge fuel (fuelBound db) with hlt | hge
    · have : fuelBound db = fuel + 1 := by omega
      rw [this]
    · rw [gdcVisit_fuel_succ db fuel pid ∅ ?_, ih hge]
      rw [Finset.sdiff_empty]
      have : fuelBound db = (personUniverse db).card + 1 := rfl
      omega

/-! ### Claims C1, C2, C3 -/

/-- C3: the traversal terminates on every store, cyclic advisor graphs
included: once the fuel exceeds the number of person ids in the store,
the fuel-indexed unfolding of the recursion no longer changes, so
`get_descendants_count` is the recursion's finite, deterministic value;
and a call on an already-visited person returns `(0, 0)` at once — the
shared visited set is what bounds the recursion. -/
theorem get_descendants_count_terminates (db : DB) (pid : String) (fuel : Nat)
    (h : fuelBound db ≤ fuel) :
    (gdcVisit db fuel pid ∅).1 = get_descendants_count db pid ∧
    ∀ vis, pid ∈ vis → gdcVisit db fuel pid vis = ((0, 0), vis) := by
  constructor
  · rw [get_descendants_count, gdcVisit_fuel_ge db pid fuel h]
  · intro vis hvis
    rcases fuel with _ | fuel
    · exfalso
      have : 1 ≤ fuelBound db := by
        rw [fuelBound]
        omega
      omega
    · rw [gdcVisit_succ, if_pos hvis]

theorem get_descendants_count_terminates_witness :
    (gdcVisit dbCycle (fuelBound dbCycle + 7) "A" ∅).1 = get_descendants_count dbCycle "A" ∧
    ∀ vis, "A" ∈ vis → gdcVisit dbCycle (fuelBound dbCycle + 7) "A" vis = ((0, 0), vis) :=
  get_descendants_count_terminates dbCycle "A" (fuelBound dbCycle + 7) (by omega)

/-- C1 (amended): `totalDescendants` equals the number of
advisor→student edges leaving the persons reachable from the root (the
root included): the sum, over the reachable set, of each person's number
of distinct direct students. A person reachable through several advisors
is counted once per such advisor, so the value is at least — and under
converging paths strictly more than — the number of distinct
descendants: every finite set of distinct descendants has at most
`totalDescendants` elements. -/
theorem get_descendants_count_total_spec (db : DB) (root : String) :
    ∃ V : Finset String,
      (∀ v, v ∈ V ↔ Relation.ReflTransGen (advStep db) root v) ∧
      (get_descendants_count db root).1 =
        Finset.sum V (fun v => (directStudents db v).length) ∧
      ∀ D : Finset String, (∀ v ∈ D, Relation.TransGen (advStep db) root v) →
        D.card ≤ (get_descendants_count db root).1 := by
  refine ⟨(gdcVisit db (fuelBound db) root ∅).2, ?_, ?_, ?_⟩
  · intro v
    constructor
    · intro hv
      rcases gdcVisit_reach db (fuelBound db) root ∅ v hv with h | h
      · exact absurd h (Finset.not_mem_empty v)
      · exact h
    · exact gdcVisit_complete db root v
  · have htot := gdcVisit_total db (fuelBound db) root ∅
    rw [Finset.sdiff_empty] at htot
    exact htot
  · intro D hD
    have hsub : D ⊆ (gdcVisit db (fuelBound db) root ∅).2.biUnion
        (fun u => (directStudents db u).toFinset) := by
      intro v hv
      have htg := hD v hv
      rw [Relation.TransGen.tail'_iff] at htg
      obtain ⟨b, hb, hstep⟩ := htg
      rw [Finset.mem_biUnion]
      exact ⟨b, gdcVisit_complete db root b hb, List.mem_toFinset.mpr hstep⟩
    have h1 := Finset.card_le_card hsub
    have h2 := Finset.card_biUnion_le
      (s := (gdcVisit db (fuelBound db) root ∅).2)
      (t := fun u => (directStudents db u).toFinset)
    have h3 : Finset.sum ((gdcVisit db (fuelBound db) root ∅).2)
        (fun u => (directStudents db u).toFinset.card) ≤
        Finset.sum ((gdcVisit db (fuelBound db) root ∅).2)
          (fun u => (directStudents db u).length) :=
      Finset.sum_le_sum (fun u _ => List.toFinset_card_le _)
    have htot := gdcVisit_total db (fuelBound db) root ∅
    rw [Finset.sdiff_empty] at htot
    rw [get_descendants_count, htot]
    omega

/-- C1 counterexample: in the diamond store (A advised B and C; B and C
both advised D) the persons reachable from A by one or more
advisor→student steps are exactly B, C and D — three distinct
descendants — yet `totalDescendants` is 4: D is counted under B and
again under C, exceeding the true number of distinct descendants. -/
theorem get_descendants_count_diamond_cex :
    get_descendants_count dbDiamond "A" = (4, 2) ∧
    (∀ v, Relation.TransGen (advStep dbDiamond) "A" v ↔ (v = "B" ∨ v = "C" ∨ v = "D")) ∧
    ({"B", "C", "D"} : Finset String).card = 3 := by
  refine ⟨by decide, ?_, by decide⟩
  have hA : directStudents dbDiamond "A" = ["B", "C"] := by decide
  have hB : directStudents dbDiamond "B" = ["D"] := by decide
  have hC : directStudents dbDiamond "C" = ["D"] := by decide
  have hD : directStudents dbDiamond "D" = [] := by decide
  intro v
  constructor
  · intro h
    induction h with
    | single h1 =>
      rename_i c
      rw [advStep, hA] at h1
      rcases List.mem_cons.mp h1 with h1 | h1
      · exact Or.inl h1
      · rw [List.mem_singleton] at h1
        exact Or.inr (Or.inl h1)
    | tail _ h2 ih =>
      rename_i b c _
      rcases ih with rfl | rfl | rfl
      · rw [advStep, hB] at h2
        rw [List.mem_singleton] at h2
        exact Or.inr (Or.inr h2)
      · rw [advStep, hC] at h2
        rw [List.mem_singleton] at h2
        exact Or.inr (Or.inr h2)
      · rw [advStep, hD] at h2
        exact absurd h2 (List.not_mem_nil c)
  · intro h
    rcases h with rfl | rfl | rfl
    · exact Relation.TransGen.single (show "B" ∈ directStudents dbDiamond "A" by decide)
    · exact Relation.TransGen.single (show "C" ∈ directStudents dbDiamond "A" by decide)
    · exact Relation.TransGen.tail
        (Relation.TransGen.single (show "B" ∈ directStudents dbDiamond "A" by decide))
        (show "D" ∈ directStudents dbDiamond "B" by decide)

/-- C2 (amended): `maxDepth` is the generation length of some
advisor→student walk from the root — walks may revisit people, a step
into an already-visited person counting as one final generation — not of
the longest simple path, which it can exceed (cycles) or fall short of
(converging paths); a person with no direct students gets `(0, 0)`. -/
theorem get_descendants_count_depth_spec (db : DB) (root : String) :
    WalkLen db root (get_descendants_count db root).2 ∧
    (directStudents db root = [] → get_descendants_count db root = (0, 0)) := by
  constructor
  · exact gdcVisit_walk db (fuelBound db) root ∅
  · intro h
    have hie : (directStudents db root).isEmpty = true := by
      rw [h]
      rfl
    rw [get_descendants_count, fuelBound, gdcVisit_succ,
      if_neg (Finset.not_mem_empty root), if_pos hie]

/-- C2 counterexample: in the cycle store (A advised B, B advised A),
`maxDepth(A)` is 2, but the longest simple path from A has exactly one
generation: the path A,B is simple, and every simple path from A has at
most two vertices. -/
theorem get_descendants_count_cycle_cex :
    get_descendants_count dbCycle "A" = (2, 2) ∧
    isSimplePathFrom dbCycle "A" ["A", "B"] ∧
    (∀ l, isSimplePathFrom dbCycle "A" l → l.length ≤ 2) := by
  have hA : directStudents dbCycle "A" = ["B"] := by decide
  have hB : directStudents dbCycle "B" = ["A"] := by decide
  refine ⟨by decide, ?_, ?_⟩
  · refine ⟨?_, by decide, rfl⟩
    rw [List.chain'_cons]
    exact ⟨show "B" ∈ directStudents dbCycle "A" by decide, List.chain'_singleton "B"⟩
  · have hclosed : ∀ (t : List String) (a : String),
        (a = "A" ∨ a = "B") → (a :: t).Chain' (advStep dbCycle) →
        ∀ x ∈ a :: t, x = "A" ∨ x = "B" := by
      intro t
      induction t with
      | nil =>
        intro a ha _ x hx
        rw [List.mem_singleton] at hx
        subst hx
        exact ha
      | cons b t2 ih =>
        intro a ha hchain x hx
        rw [List.chain'_cons] at hchain
        obtain ⟨hab, hchain2⟩ := hchain
        have hb : b = "A" ∨ b = "B" := by
          rcases ha with rfl | rfl
          · rw [advStep, hA, List.mem_singleton] at hab
            exact Or.inr hab
          · rw [advStep, hB, List.mem_singleton] at hab
            exact Or.inl hab
        rcases List.mem_cons.mp hx with rfl | hx
        · exact ha
        · exact ih b hb hchain2 x hx
    intro l hl
    obtain ⟨hchain, hnodup, hhead⟩ := hl
    cases l with
    | nil => simp
    | cons a t =>
      have ha : a = "A" := by
        rw [List.head?_cons] at hhead
        injection hhead
      have hmemset : ∀ x ∈ a :: t, x ∈ ({"A", "B"} : Finset String) := by
        intro x hx
        have := hclosed t a (Or.inl ha) hchain x hx
        rcases this with rfl | rfl
        · exact Finset.mem_insert_self _ _
        · exact Finset.mem_insert_of_mem (Finset.mem_singleton_self _)
      have hcard : (a :: t).toFinset.card = (a :: t).length :=
        List.toFinset_card_of_nodup hnodup
      have hsub : (a :: t).toFinset ⊆ ({"A", "B"} : Finset String) := by
        intro x hx
        exact hmemset x (List.mem_toFinset.mp hx)
      have := Finset.card_le_card hsub
      have hcard2 : ({"A", "B"} : Finset String).card = 2 := by decide
      omega
